import Mathlib

/-!
Verification of the path-keyed trie library (package `trie`).

The repository exposes two flavors of one data structure:
  * `sliceTrie` — keys are explicit token sequences (`[]K` in the source,
    modelled as `List K`);
  * `stringTrie` — keys are strings split incrementally at a configured
    delimiter by `strings.Cut` (strings modelled as `List Char`).

Both are built from the same node shape: a value slot plus a map from token
to child node.  The Go map is modelled as an association list; `Get` only
ever performs a key lookup, so the (irrelevant) iteration order of the Go
map does not enter any observable behaviour.  The per-node `sync.RWMutex`
guards single map accesses only and is held across no recursive call; the
sequential semantics modelled here is the one the source defines for each
individual operation.

The Go `stringTrie` additionally stores the delimiter redundantly in every
node; it is fixed at construction and equal in all nodes of one trie, so it
is modelled as an explicit parameter `d` of the string operations.  Go's
zero value of the stored type `V` is modelled by `default` of an
`Inhabited` instance.
-/

set_option autoImplicit false

namespace Trie

variable {K V A : Type}

/-- A trie node: a value slot and the child map (Go: `children map[K]*trie`),
modelled as an association list with unique keys. -/
inductive Node (K V : Type) : Type where
  | mk : V → List (K × Node K V) → Node K V

/-- The value slot of a node (Go field `value V`). -/
def Node.value : Node K V → V
  | .mk v _ => v

/-- The child map of a node (Go field `children`). -/
def Node.children : Node K V → List (K × Node K V)
  | .mk _ c => c

@[simp] theorem Node.value_mk (v : V) (c : List (K × Node K V)) :
    (Node.mk v c).value = v := rfl

@[simp] theorem Node.children_mk (v : V) (c : List (K × Node K V)) :
    (Node.mk v c).children = c := rfl

/-- Map read `m[k]` on the association list modelling the Go map. -/
def lookupChild [DecidableEq K] : List (K × A) → K → Option A
  | [], _ => none
  | (k', c) :: t, k => if k' = k then some c else lookupChild t k

/-- Map write `m[k] = c` on the association list: replace the binding of `k`
if present, else append a new one. -/
def setChild [DecidableEq K] : List (K × A) → K → A → List (K × A)
  | [], k, c => [(k, c)]
  | (k', c') :: t, k, c => if k' = k then (k, c) :: t else (k', c') :: setChild t k c

/-- Map deletion `delete(m, k)` on the association list: remove every binding
of `k` (a Go map holds at most one). -/
def eraseChild [DecidableEq K] : List (K × A) → K → List (K × A)
  | [], _ => []
  | (k', c') :: t, k => if k' = k then eraseChild t k else (k', c') :: eraseChild t k

/-- A freshly constructed node (Go `newSliceTrie` / `newStringTrie`): zero
value, empty child map. -/
def newNode [Inhabited V] : Node K V := Node.mk default []

/-- The child of `t` keyed by `k`, or a fresh node when absent — the
locate-or-create step of `Put`. -/
def childOrNew [DecidableEq K] [Inhabited V] (ch : List (K × Node K V)) (k : K) : Node K V :=
  match lookupChild ch k with
  | some c => c
  | none => newNode

namespace sliceTrie

/-- `sliceTrie.Put` from the source: empty path assigns the value at the
current node; otherwise locate-or-create the child keyed by `path[0]` and
recurse with `path[1:]`. -/
def Put [DecidableEq K] [Inhabited V] (t : Node K V) (path : List K) (v : V) : Node K V :=
  match path with
  | [] => Node.mk v t.children
  | k :: rest => Node.mk t.value (setChild t.children k (Put (childOrNew t.children k) rest v))

/-- `sliceTrie.Get` from the source: empty path returns the current node's
value slot with `found = true`; otherwise look up the child keyed by
`path[0]`, returning the zero value and `false` when absent, and recurse
when present. -/
def Get [DecidableEq K] [Inhabited V] (t : Node K V) (path : List K) : V × Bool :=
  match path with
  | [] => (t.value, true)
  | k :: rest =>
    match lookupChild t.children k with
    | none => (default, false)
    | some c => Get c rest

/-- `sliceTrie.Delete` from the source.  The Go method panics on an empty
path (`panic("trie: cannot delete self")`); the panic aborts the call before
any mutation, modelled as result `none`.  A normal return is `some` of the
resulting trie: a one-token path deletes the child keyed by that token
(map deletion of an absent key changes nothing); a longer path looks up the
child keyed by `path[0]`, returns with no change when it is absent, and
recurses otherwise. -/
def Delete [DecidableEq K] (t : Node K V) (path : List K) : Option (Node K V) :=
  match path with
  | [] => none
  | [k] => some (Node.mk t.value (eraseChild t.children k))
  | k :: rest =>
    match lookupChild t.children k with
    | none => some t
    | some c =>
      match Delete c rest with
      | none => none
      | some c2 => some (Node.mk t.value (setChild t.children k c2))

end sliceTrie

/-! ### The delimited-string flavor

Strings are modelled as `List Char`.  `strings.Cut(s, sep)` returns the text
before and after the first occurrence of `sep` in `s` (and whether it was
found); if `sep` does not occur, it returns `(s, "", false)`. -/

/-- `sep` is a prefix of `s` (the test `strings.Index` performs at each
position). -/
def hasPre : List Char → List Char → Bool
  | [], _ => true
  | _ :: _, [] => false
  | a :: s1, b :: s2 => if a = b then hasPre s1 s2 else false

/-- `strings.Index(s, sep)`: index of the first occurrence of `sep` in `s`,
`none` when absent (Go returns `-1`). -/
def index? (s sep : List Char) : Option Nat :=
  if hasPre sep s then some 0
  else
    match s with
    | [] => none
    | _ :: t => (index? t sep).map (fun n => n + 1)

/-- `strings.Cut(s, sep)`: `(before, after, found)` around the first
occurrence of `sep`; `(s, "", false)` when `sep` is absent. -/
def cut (s sep : List Char) : List Char × List Char × Bool :=
  match index? s sep with
  | some i => (s.take i, s.drop (i + sep.length), true)
  | none => (s, [], false)

theorem cut_rest_length_lt {s sep : List Char} (hsep : sep ≠ []) (hs : s ≠ []) :
    (cut s sep).2.1.length < s.length := by
  unfold cut
  cases hix : index? s sep with
  | none =>
    simpa using List.length_pos.mpr hs
  | some i =>
    simp only [List.length_drop]
    have h1 : 0 < i + sep.length :=
      Nat.lt_of_lt_of_le (List.length_pos.mpr hsep) (Nat.le_add_left _ _)
    exact Nat.sub_lt (List.length_pos.mpr hs) h1

theorem cut_nil_rest (sep : List Char) : (cut [] sep).2.1 = [] := by
  unfold cut
  cases hix : index? [] sep with
  | none => rfl
  | some i => simp

theorem cut_rest_ne_nil_lt {s sep : List Char} (hsep : sep ≠ [])
    (h : (cut s sep).2.1 ≠ []) : (cut s sep).2.1.length < s.length := by
  have hs : s ≠ [] := by
    intro hnil
    exact h (hnil ▸ cut_nil_rest sep)
  exact cut_rest_length_lt hsep hs

namespace stringTrie

/-- `stringTrie.Put` from the source: empty path assigns the value at the
current node; otherwise `strings.Cut` the path at the first delimiter into
`(key, rest)`, locate-or-create the child keyed by `key`, and recurse into
it with `rest`. -/
def Put {V : Type} [Inhabited V] (d : List Char) (hd : d ≠ [])
    (t : Node (List Char) V) (path : List Char) (v : V) : Node (List Char) V :=
  if h : path = [] then Node.mk v t.children
  else
    Node.mk t.value (setChild t.children (cut path d).1
      (Put d hd (childOrNew t.children (cut path d).1) (cut path d).2.1 v))
termination_by path.length
decreasing_by exact cut_rest_length_lt hd h

/-- `stringTrie.Get` from the source: empty path returns the current node's
value slot with `found = true`; otherwise `strings.Cut` the path into
`(key, rest)`, return the zero value with `false` when the child keyed by
`key` is absent, and recurse with `rest` when present. -/
def Get {V : Type} [Inhabited V] (d : List Char) (hd : d ≠ [])
    (t : Node (List Char) V) (path : List Char) : V × Bool :=
  if h : path = [] then (t.value, true)
  else
    match lookupChild t.children (cut path d).1 with
    | none => (default, false)
    | some c => Get d hd c (cut path d).2.1
termination_by path.length
decreasing_by exact cut_rest_length_lt hd h

/-- `stringTrie.Delete` from the source: `strings.Cut` the path into
`(key, rest)`; when `rest` is empty, delete the child keyed by `key` (with
its whole subtree); otherwise look up that child, return with no change when
absent and recurse with `rest` when present.  Unlike the slice flavor it has
no panic: it is total, and an empty path proceeds with `key = ""`. -/
def Delete {V : Type} (d : List Char) (hd : d ≠ [])
    (t : Node (List Char) V) (path : List Char) : Node (List Char) V :=
  if h : (cut path d).2.1 = [] then
    Node.mk t.value (eraseChild t.children (cut path d).1)
  else
    match lookupChild t.children (cut path d).1 with
    | none => t
    | some c =>
      Node.mk t.value (setChild t.children (cut path d).1 (Delete d hd c (cut path d).2.1))
termination_by path.length
decreasing_by exact cut_rest_ne_nil_lt hd h

end stringTrie

/-- The token sequence a string key is split into by repeated application of
`strings.Cut` during descent (used to state which node a string key walks
to). -/
def tokens (d : List Char) (hd : d ≠ []) (s : List Char) : List (List Char) :=
  if h : s = [] then []
  else (cut s d).1 :: tokens d hd (cut s d).2.1
termination_by s.length
decreasing_by exact cut_rest_length_lt hd h

/-! ### Association-list (Go map) lemmas -/

theorem Node.eta (t : Node K V) : Node.mk t.value t.children = t := by
  cases t
  rfl

theorem lookup_set_self [DecidableEq K] (ch : List (K × A)) (k : K) (c : A) :
    lookupChild (setChild ch k c) k = some c := by
  induction ch with
  | nil => simp [setChild, lookupChild]
  | cons p t ih =>
    obtain ⟨k', c'⟩ := p
    by_cases h : k' = k
    · subst h
      simp [setChild, lookupChild]
    · simp [setChild, lookupChild, h, ih]

theorem lookup_set_ne [DecidableEq K] (ch : List (K × A)) {k k' : K} (c : A)
    (h : k' ≠ k) : lookupChild (setChild ch k c) k' = lookupChild ch k' := by
  have h' : k ≠ k' := Ne.symm h
  induction ch with
  | nil => simp [setChild, lookupChild, h']
  | cons p t ih =>
    obtain ⟨k0, c0⟩ := p
    by_cases h0 : k0 = k
    · subst h0
      simp [setChild, lookupChild, h']
    · simp [setChild, lookupChild, h0, ih]

theorem lookup_erase_self [DecidableEq K] (ch : List (K × A)) (k : K) :
    lookupChild (eraseChild ch k) k = none := by
  induction ch with
  | nil => simp [eraseChild, lookupChild]
  | cons p t ih =>
    obtain ⟨k0, c0⟩ := p
    by_cases h0 : k0 = k
    · simp [eraseChild, h0, ih]
    · simp [eraseChild, lookupChild, h0, ih]

theorem lookup_erase_ne [DecidableEq K] (ch : List (K × A)) {k k' : K}
    (h : k' ≠ k) : lookupChild (eraseChild ch k) k' = lookupChild ch k' := by
  have h' : k ≠ k' := Ne.symm h
  induction ch with
  | nil => simp [eraseChild]
  | cons p t ih =>
    obtain ⟨k0, c0⟩ := p
    by_cases h0 : k0 = k
    · subst h0
      simp [eraseChild, lookupChild, h', ih]
    · simp [eraseChild, lookupChild, h0, ih]

theorem set_self_of_lookup [DecidableEq K] (ch : List (K × A)) {k : K} {c : A}
    (h : lookupChild ch k = some c) : setChild ch k c = ch := by
  induction ch with
  | nil => simp [lookupChild] at h
  | cons p t ih =>
    obtain ⟨k0, c0⟩ := p
    by_cases h0 : k0 = k
    · subst h0
      simp [lookupChild] at h
      simp [setChild, h]
    · simp [lookupChild, h0] at h
      simp [setChild, h0, ih h]

theorem erase_of_lookup_none [DecidableEq K] (ch : List (K × A)) {k : K}
    (h : lookupChild ch k = none) : eraseChild ch k = ch := by
  induction ch with
  | nil => simp [eraseChild]
  | cons p t ih =>
    obtain ⟨k0, c0⟩ := p
    by_cases h0 : k0 = k
    · simp [lookupChild, h0] at h
    · simp [lookupChild, h0] at h
      simp [eraseChild, h0, ih h]

/-! ### Slice-trie helper lemmas -/

namespace sliceTrie

theorem Get_nil [DecidableEq K] [Inhabited V] (t : Node K V) :
    Get t [] = (t.value, true) := rfl

theorem Put_value_of_ne_nil [DecidableEq K] [Inhabited V] (t : Node K V)
    {k : List K} (hk : k ≠ []) (v : V) : (Put t k v).value = t.value := by
  cases k with
  | nil => exact absurd rfl hk
  | cons x ks => simp [Put]

theorem Get_Put_self [DecidableEq K] [Inhabited V] :
    ∀ (k : List K) (t : Node K V) (v : V), Get (Put t k v) k = (v, true) := by
  intro k
  induction k with
  | nil => intro t v; simp [Put, Get]
  | cons x ks ih =>
    intro t v
    simp [Put, Get, lookup_set_self, ih]

theorem Get_Put_intermediate [DecidableEq K] [Inhabited V] :
    ∀ (p q : List K), q ≠ [] → ∀ v : V,
      Get (Put (newNode : Node K V) (p ++ q) v) p = (default, true) := by
  intro p
  induction p with
  | nil =>
    intro q hq v
    cases q with
    | nil => exact absurd rfl hq
    | cons y qs => simp [Put, Get, newNode]
  | cons x ps ih =>
    intro q hq v
    simp only [List.cons_append, Put, Get, Node.children_mk, Node.value_mk]
    simp [newNode, childOrNew, lookupChild, setChild]
    exact ih q hq v

theorem Put_frame [DecidableEq K] [Inhabited V] :
    ∀ (k' k : List K) (t : Node K V) (v : V),
      (∀ e, k ≠ k' ++ e) → Get (Put t k v) k' = Get t k' := by
  intro k'
  induction k' with
  | nil =>
    intro k t v hext
    exact absurd (by simp) (hext k)
  | cons y r ih =>
    intro k t v hext
    cases k with
    | nil => simp [Put, Get]
    | cons x ks =>
      by_cases hyx : y = x
      · subst hyx
        have hext' : ∀ e, ks ≠ r ++ e := by
          intro e he
          exact hext e (by simp [he])
        simp only [Put, Get, Node.children_mk, Node.value_mk, lookup_set_self]
        rw [ih ks (childOrNew t.children y) v hext']
        cases hlook : lookupChild t.children y with
        | some c => simp [childOrNew, hlook]
        | none =>
          cases r with
          | nil => exact absurd rfl (hext' ks)
          | cons z rs => simp [childOrNew, hlook, Get, newNode, lookupChild]
      · simp only [Put, Get, Node.children_mk, Node.value_mk]
        rw [lookup_set_ne _ _ hyx]

theorem Delete_nil [DecidableEq K] (t : Node K V) : Delete t [] = none := rfl

theorem Delete_isSome [DecidableEq K] :
    ∀ (k : List K) (t : Node K V), k ≠ [] → ∃ t', Delete t k = some t' := by
  intro k
  induction k with
  | nil => intro t h; exact absurd rfl h
  | cons x ks ih =>
    intro t _
    cases ks with
    | nil => exact ⟨_, rfl⟩
    | cons z zs =>
      cases hlook : lookupChild t.children x with
      | none => exact ⟨t, by simp only [Delete, hlook]⟩
      | some c =>
        obtain ⟨c2, hc2⟩ := ih c (by simp)
        exact ⟨Node.mk t.value (setChild t.children x c2), by simp only [Delete, hlook, hc2]⟩

theorem Delete_absent_noop [DecidableEq K] [Inhabited V] :
    ∀ (k : List K) (t : Node K V), k ≠ [] → (Get t k).2 = false →
      Delete t k = some t := by
  intro k
  induction k with
  | nil => intro t h; exact absurd rfl h
  | cons x ks ih =>
    intro t _ hget
    cases ks with
    | nil =>
      have hlook : lookupChild t.children x = none := by
        cases hl : lookupChild t.children x with
        | none => rfl
        | some c => simp [Get, hl] at hget
      simp [Delete, erase_of_lookup_none _ hlook, Node.eta]
    | cons z zs =>
      cases hlook : lookupChild t.children x with
      | none => simp only [Delete, hlook]
      | some c =>
        have hget' : (Get c (z :: zs)).2 = false := by
          simpa [Get, hlook] using hget
        simp only [Delete, hlook, ih c (by simp) hget']
        simp [set_self_of_lookup _ hlook, Node.eta]

theorem Delete_Get_extension [DecidableEq K] [Inhabited V] :
    ∀ (k : List K) (t t' : Node K V) (ext : List K),
      k ≠ [] → Delete t k = some t' → (Get t' (k ++ ext)).2 = false := by
  intro k
  induction k with
  | nil => intro t t' ext h _; exact absurd rfl h
  | cons x ks ih =>
    intro t t' ext _ hdel
    cases ks with
    | nil =>
      simp only [Delete, Option.some.injEq] at hdel
      subst hdel
      simp [Get, lookup_erase_self]
    | cons z zs =>
      cases hlook : lookupChild t.children x with
      | none =>
        simp only [Delete, hlook, Option.some.injEq] at hdel
        subst hdel
        simp [Get, hlook]
      | some c =>
        simp only [Delete, hlook] at hdel
        cases hdc : Delete c (z :: zs) with
        | none => rw [hdc] at hdel; simp at hdel
        | some c2 =>
          rw [hdc] at hdel
          simp only [Option.some.injEq] at hdel
          subst hdel
          have hih := ih c c2 ext (by simp) hdc
          simpa only [List.cons_append, Get, Node.children_mk, lookup_set_self] using hih

theorem Delete_frame [DecidableEq K] [Inhabited V] :
    ∀ (k : List K) (t t' : Node K V) (k' : List K),
      Delete t k = some t' → (∀ e, k' ≠ k ++ e) → Get t' k' = Get t k' := by
  intro k
  induction k with
  | nil => intro t t' k' hdel _; simp [Delete] at hdel
  | cons x ks ih =>
    intro t t' k' hdel hext
    cases ks with
    | nil =>
      simp only [Delete, Option.some.injEq] at hdel
      subst hdel
      cases k' with
      | nil => simp [Get]
      | cons y r =>
        by_cases hyx : y = x
        · subst hyx
          exact absurd (by simp) (hext r)
        · simp [Get, lookup_erase_ne _ hyx]
    | cons z zs =>
      cases hlook : lookupChild t.children x with
      | none =>
        simp only [Delete, hlook, Option.some.injEq] at hdel
        subst hdel
        rfl
      | some c =>
        simp only [Delete, hlook] at hdel
        cases hdc : Delete c (z :: zs) with
        | none => rw [hdc] at hdel; simp at hdel
        | some c2 =>
          rw [hdc] at hdel
          simp only [Option.some.injEq] at hdel
          subst hdel
          cases k' with
          | nil => simp [Get]
          | cons y r =>
            by_cases hyx : y = x
            · subst hyx
              have hext' : ∀ e, r ≠ z :: zs ++ e := by
                intro e he
                exact hext e (by simp [he])
              simp [Get, lookup_set_self, hlook, ih c c2 r hdc hext']
            · simp [Get, lookup_set_ne _ _ hyx]

end sliceTrie

/-! ### Refinement: the string flavor walks exactly the `tokens` sequence -/

theorem tokens_nil (d : List Char) (hd : d ≠ []) : tokens d hd [] = [] := by
  unfold tokens
  simp

theorem tokens_cons (d : List Char) (hd : d ≠ []) {s : List Char} (hs : s ≠ []) :
    tokens d hd s = (cut s d).1 :: tokens d hd (cut s d).2.1 := by
  conv_lhs => unfold tokens
  simp [hs]

theorem tokens_ne_nil (d : List Char) (hd : d ≠ []) {s : List Char} (hs : s ≠ []) :
    tokens d hd s ≠ [] := by
  rw [tokens_cons d hd hs]
  simp

section Refinement

variable {V : Type} [Inhabited V]

theorem Get_tokens_fuel (d : List Char) (hd : d ≠ []) :
    ∀ (n : Nat) (s : List Char), s.length ≤ n → ∀ t : Node (List Char) V,
      stringTrie.Get d hd t s = sliceTrie.Get t (tokens d hd s) := by
  intro n
  induction n with
  | zero =>
    intro s hs t
    have h : s = [] := List.eq_nil_of_length_eq_zero (Nat.le_zero.mp hs)
    subst h
    simp [stringTrie.Get, tokens_nil, sliceTrie.Get]
  | succ n ih =>
    intro s hs t
    by_cases h : s = []
    · subst h
      simp [stringTrie.Get, tokens_nil, sliceTrie.Get]
    · rw [tokens_cons d hd h]
      have hlt : (cut s d).2.1.length ≤ n :=
        Nat.le_of_lt_succ (Nat.lt_of_lt_of_le (cut_rest_length_lt hd h) hs)
      rw [stringTrie.Get]
      simp only [h, dite_false]
      cases hlook : lookupChild t.children (cut s d).1 with
      | none => simp [sliceTrie.Get, hlook]
      | some c => simp [sliceTrie.Get, hlook, ih _ hlt c]

theorem Get_tokens (d : List Char) (hd : d ≠ []) (t : Node (List Char) V)
    (s : List Char) :
    stringTrie.Get d hd t s = sliceTrie.Get t (tokens d hd s) :=
  Get_tokens_fuel d hd s.length s (Nat.le_refl _) t

theorem Put_tokens_fuel (d : List Char) (hd : d ≠ []) :
    ∀ (n : Nat) (s : List Char), s.length ≤ n → ∀ (t : Node (List Char) V) (v : V),
      stringTrie.Put d hd t s v = sliceTrie.Put t (tokens d hd s) v := by
  intro n
  induction n with
  | zero =>
    intro s hs t v
    have h : s = [] := List.eq_nil_of_length_eq_zero (Nat.le_zero.mp hs)
    subst h
    simp [stringTrie.Put, tokens_nil, sliceTrie.Put]
  | succ n ih =>
    intro s hs t v
    by_cases h : s = []
    · subst h
      simp [stringTrie.Put, tokens_nil, sliceTrie.Put]
    · rw [tokens_cons d hd h]
      have hlt : (cut s d).2.1.length ≤ n :=
        Nat.le_of_lt_succ (Nat.lt_of_lt_of_le (cut_rest_length_lt hd h) hs)
      rw [stringTrie.Put]
      simp only [h, dite_false]
      simp [sliceTrie.Put, ih _ hlt]

theorem Put_tokens (d : List Char) (hd : d ≠ []) (t : Node (List Char) V)
    (s : List Char) (v : V) :
    stringTrie.Put d hd t s v = sliceTrie.Put t (tokens d hd s) v :=
  Put_tokens_fuel d hd s.length s (Nat.le_refl _) t v

theorem Delete_tokens_fuel (d : List Char) (hd : d ≠ []) :
    ∀ (n : Nat) (s : List Char), s.length ≤ n → s ≠ [] →
      ∀ t : Node (List Char) V,
        sliceTrie.Delete t (tokens d hd s) = some (stringTrie.Delete d hd t s) := by
  intro n
  induction n with
  | zero =>
    intro s hs hne t
    exact absurd (List.eq_nil_of_length_eq_zero (Nat.le_zero.mp hs)) hne
  | succ n ih =>
    intro s hs hne t
    rw [tokens_cons d hd hne]
    by_cases hrest : (cut s d).2.1 = []
    · rw [hrest, tokens_nil, stringTrie.Delete]
      simp [hrest, sliceTrie.Delete]
    · have hlt : (cut s d).2.1.length ≤ n :=
        Nat.le_of_lt_succ (Nat.lt_of_lt_of_le (cut_rest_length_lt hd hne) hs)
      rw [tokens_cons d hd hrest, stringTrie.Delete]
      simp only [hrest, dite_false]
      cases hlook : lookupChild t.children (cut s d).1 with
      | none => simp only [sliceTrie.Delete, hlook]
      | some c =>
        have hdc := ih _ hlt hrest c
        rw [tokens_cons d hd hrest] at hdc
        simp only [sliceTrie.Delete, hlook, hdc]

theorem Delete_tokens (d : List Char) (hd : d ≠ []) (t : Node (List Char) V)
    {s : List Char} (hs : s ≠ []) :
    sliceTrie.Delete t (tokens d hd s) = some (stringTrie.Delete d hd t s) :=
  Delete_tokens_fuel d hd s.length s (Nat.le_refl _) hs t

end Refinement

/-! ### Facts about `cut` at particular inputs -/

theorem hasPre_nil {d : List Char} (hd : d ≠ []) : hasPre d [] = false := by
  cases d with
  | nil => exact absurd rfl hd
  | cons a d' => rfl

theorem cut_nil {d : List Char} (hd : d ≠ []) : cut [] d = ([], [], false) := by
  unfold cut index?
  rw [hasPre_nil hd]
  simp

theorem hasPre_append (d r : List Char) : hasPre d (d ++ r) = true := by
  induction d with
  | nil => rfl
  | cons a d' ih => simp [hasPre, ih]

theorem index?_append (d r : List Char) : index? (d ++ r) d = some 0 := by
  unfold index?
  rw [hasPre_append]
  simp

theorem cut_append (d r : List Char) : cut (d ++ r) d = ([], r, true) := by
  unfold cut
  rw [index?_append]
  simp

/-- The delimiter `"/"` used throughout the repository's tests. -/
def slash : List Char := ['/']

theorem slash_ne_nil : slash ≠ [] := by decide

/-! ### The claims -/

/-- C1: for both trie flavors, for every trie state, every key (token
sequence, or string for the delimited flavor) and every value `v`,
`Put(k, v)` followed by `Get(k)` on the same trie returns `(v, true)`. -/
theorem C1_put_then_get_round_trip :
    (∀ (K V : Type) [DecidableEq K] [Inhabited V] (t : Node K V) (k : List K) (v : V),
      sliceTrie.Get (sliceTrie.Put t k v) k = (v, true)) ∧
    (∀ (V : Type) [Inhabited V] (d : List Char) (hd : d ≠ [])
        (t : Node (List Char) V) (s : List Char) (v : V),
      stringTrie.Get d hd (stringTrie.Put d hd t s v) s = (v, true)) := by
  constructor
  · intro K V _ _ t k v
    exact sliceTrie.Get_Put_self k t v
  · intro V _ d hd t s v
    rw [Put_tokens d hd t s v, Get_tokens d hd _ s]
    exact sliceTrie.Get_Put_self (tokens d hd s) t v

/-- C1 witness: the round trip at concrete inputs; the delimiter hypothesis
`"/" ≠ ""` is discharged by `slash_ne_nil`. -/
theorem C1_witness :
    sliceTrie.Get (sliceTrie.Put (newNode : Node Nat Nat) [1, 2] 7) [1, 2] = (7, true) ∧
    stringTrie.Get slash slash_ne_nil
        (stringTrie.Put slash slash_ne_nil (newNode : Node (List Char) Nat)
          ['a', '/', 'b'] 7)
        ['a', '/', 'b'] = (7, true) :=
  ⟨C1_put_then_get_round_trip.1 Nat Nat newNode [1, 2] 7,
   C1_put_then_get_round_trip.2 Nat slash slash_ne_nil newNode ['a', '/', 'b'] 7⟩

/-- C3: on the token-sequence trie, `Delete` with an empty path fails
fatally — the Go method's first statement is
`panic("trie: cannot delete self")`, reached before any lock is taken or any
map is touched.  The panic is modelled as result `none`: the operation
produces no successor state, so no mutation of the trie is performed by the
failed call. -/
theorem C3_delete_empty_path_fatal :
    ∀ (K V : Type) [DecidableEq K] (t : Node K V),
      sliceTrie.Delete t ([] : List K) = none :=
  fun _ _ _ _ => rfl

/-- C5: for both flavors, `Get` with an empty remaining path answers
`(value slot, true)` unconditionally, so a node that exists only as an
intermediate hop of a longer previously-`Put` key reports `found = true`
with the default value of `V`: on the token-sequence trie a `Put` of
`p ++ q` into an empty trie makes `Get p` answer `(default, true)`, and on
the string trie with delimiter `"/"`, `Put("a/b", v)` into an empty trie
makes `Get("a")` answer `(default, true)`. -/
theorem C5_intermediate_node_found :
    (∀ (K V : Type) [DecidableEq K] [Inhabited V] (t : Node K V),
      sliceTrie.Get t [] = (t.value, true)) ∧
    (∀ (V : Type) [Inhabited V] (d : List Char) (hd : d ≠ [])
        (t : Node (List Char) V),
      stringTrie.Get d hd t [] = (t.value, true)) ∧
    (∀ (K V : Type) [DecidableEq K] [Inhabited V] (p q : List K), q ≠ [] →
      ∀ v : V, sliceTrie.Get (sliceTrie.Put (newNode : Node K V) (p ++ q) v) p
        = (default, true)) ∧
    (∀ (V : Type) [Inhabited V] (v : V),
      stringTrie.Get slash slash_ne_nil
        (stringTrie.Put slash slash_ne_nil (newNode : Node (List Char) V)
          ['a', '/', 'b'] v)
        ['a'] = (default, true)) := by
  refine ⟨fun K V _ _ t => rfl, ?_, ?_, ?_⟩
  · intro V _ d hd t
    rw [Get_tokens d hd t [], tokens_nil]
    rfl
  · intro K V _ _ p q hq v
    exact sliceTrie.Get_Put_intermediate p q hq v
  · intro V _ v
    rw [Put_tokens, Get_tokens]
    have h1 : tokens slash slash_ne_nil ['a', '/', 'b'] = [['a'], ['b']] := by
      simp [tokens, cut, index?, hasPre, slash]
    have h2 : tokens slash slash_ne_nil ['a'] = [['a']] := by
      simp [tokens, cut, index?, hasPre, slash]
    rw [h1, h2]
    exact sliceTrie.Get_Put_intermediate [['a']] [['b']] (by simp) v

/-- C5 witness: the intermediate-hop hypothesis `q ≠ []` and the delimiter
hypothesis are discharged at concrete inputs. -/
theorem C5_witness :
    sliceTrie.Get (newNode : Node Nat Nat) [] = ((newNode : Node Nat Nat).value, true) ∧
    ([2] : List Nat) ≠ [] ∧
    sliceTrie.Get (sliceTrie.Put (newNode : Node Nat Nat) ([1] ++ [2]) 9) [1] = (default, true) ∧
    stringTrie.Get slash slash_ne_nil
        (stringTrie.Put slash slash_ne_nil (newNode : Node (List Char) Nat)
          ['a', '/', 'b'] 9)
        ['a'] = (default, true) :=
  ⟨C5_intermediate_node_found.1 Nat Nat newNode, by decide,
   C5_intermediate_node_found.2.2.1 Nat Nat [1] [2] (by decide) 9,
   C5_intermediate_node_found.2.2.2 Nat 9⟩

/-- C7: for both flavors, `Delete` on a non-empty key some prefix of which
has no corresponding node (equivalently, a key on which `Get` reports
`found = false`, since a missing prefix is exactly what makes the descent
fail) performs no mutation and reports no error: the trie state after the
call equals the state before it. -/
theorem C7_delete_absent_is_noop :
    (∀ (K V : Type) [DecidableEq K] [Inhabited V] (t : Node K V) (k : List K),
      k ≠ [] → (sliceTrie.Get t k).2 = false → sliceTrie.Delete t k = some t) ∧
    (∀ (V : Type) [Inhabited V] (d : List Char) (hd : d ≠ [])
        (t : Node (List Char) V) (s : List Char),
      s ≠ [] → (stringTrie.Get d hd t s).2 = false →
        stringTrie.Delete d hd t s = t) := by
  constructor
  · intro K V _ _ t k hk hget
    exact sliceTrie.Delete_absent_noop k t hk hget
  · intro V _ d hd t s hs hget
    rw [Get_tokens d hd t s] at hget
    have h1 : sliceTrie.Delete t (tokens d hd s) = some t :=
      sliceTrie.Delete_absent_noop (tokens d hd s) t (tokens_ne_nil d hd hs) hget
    have h2 := Delete_tokens d hd t hs
    rw [h1] at h2
    exact (Option.some.injEq _ _ ▸ h2).symm

/-- C7 witness: deleting the absent keys `[5]` and `"z"` from tries holding
only `[1]` and `"a"` leaves them unchanged. -/
theorem C7_witness :
    ([5] : List Nat) ≠ [] ∧
    (sliceTrie.Get (sliceTrie.Put (newNode : Node Nat Nat) [1] 4) [5]).2 = false ∧
    sliceTrie.Delete (sliceTrie.Put (newNode : Node Nat Nat) [1] 4) [5]
      = some (sliceTrie.Put (newNode : Node Nat Nat) [1] 4) ∧
    (['z'] : List Char) ≠ [] ∧
    (stringTrie.Get slash slash_ne_nil
        (stringTrie.Put slash slash_ne_nil (newNode : Node (List Char) Nat) ['a'] 4)
        ['z']).2 = false ∧
    stringTrie.Delete slash slash_ne_nil
        (stringTrie.Put slash slash_ne_nil (newNode : Node (List Char) Nat) ['a'] 4)
        ['z']
      = stringTrie.Put slash slash_ne_nil (newNode : Node (List Char) Nat) ['a'] 4 := by
  have hget : (sliceTrie.Get (sliceTrie.Put (newNode : Node Nat Nat) [1] 4) [5]).2 = false := by
    simp [sliceTrie.Put, sliceTrie.Get, newNode, childOrNew, lookupChild, setChild]
  have hgs : (stringTrie.Get slash slash_ne_nil
      (stringTrie.Put slash slash_ne_nil (newNode : Node (List Char) Nat) ['a'] 4)
      ['z']).2 = false := by
    simp [stringTrie.Get, stringTrie.Put, cut, index?, hasPre, slash, newNode,
      childOrNew, lookupChild, setChild]
  exact ⟨by decide, hget,
    C7_delete_absent_is_noop.1 Nat Nat _ [5] (by decide) hget,
    by decide, hgs,
    C7_delete_absent_is_noop.2 Nat slash slash_ne_nil _ ['z'] (by decide) hgs⟩

/-- C2 counterexample: with delimiter `"/"`, after `Put("foo/", 1)` and
`Put("foo", 2)` on an empty trie, `Get("foo/")` answers `(2, true)` — not
`(1, true)` as the claim states.  `strings.Cut("foo/", "/")` consumes the
delimiter and yields remainder `""`, which the descent treats as "no
remaining path", so both keys walk to the same node and the second `Put`
overwrites the first. -/
theorem C2_counterexample :
    stringTrie.Get slash slash_ne_nil
        (stringTrie.Put slash slash_ne_nil
          (stringTrie.Put slash slash_ne_nil (newNode : Node (List Char) Nat)
            ['f', 'o', 'o', '/'] 1)
          ['f', 'o', 'o'] 2)
        ['f', 'o', 'o', '/'] = (2, true) ∧
    stringTrie.Get slash slash_ne_nil
        (stringTrie.Put slash slash_ne_nil
          (stringTrie.Put slash slash_ne_nil (newNode : Node (List Char) Nat)
            ['f', 'o', 'o', '/'] 1)
          ['f', 'o', 'o'] 2)
        ['f', 'o', 'o', '/'] ≠ (1, true) := by
  have h : stringTrie.Get slash slash_ne_nil
      (stringTrie.Put slash slash_ne_nil
        (stringTrie.Put slash slash_ne_nil (newNode : Node (List Char) Nat)
          ['f', 'o', 'o', '/'] 1)
        ['f', 'o', 'o'] 2)
      ['f', 'o', 'o', '/'] = (2, true) := by
    simp [stringTrie.Get, stringTrie.Put, cut, index?, hasPre, slash, newNode,
      childOrNew, lookupChild, setChild]
  exact ⟨h, by rw [h]; decide⟩

/-- C2 amended: with delimiter `"/"`, the keys `"foo/"` and `"foo"` split to
the same token sequence `["foo"]` (trailing-delimiter remainder `""` ends
the descent rather than forming an empty-string token), so the two keys
address the same node: after `Put("foo/", v1)` and `Put("foo", v2)` the
second `Put` has overwritten the first, and both `Get("foo/")` and
`Get("foo")` answer `(v2, true)`. -/
theorem C2_amended :
    tokens slash slash_ne_nil ['f', 'o', 'o', '/'] = [['f', 'o', 'o']] ∧
    tokens slash slash_ne_nil ['f', 'o', 'o'] = [['f', 'o', 'o']] ∧
    ∀ (V : Type) [Inhabited V] (t : Node (List Char) V) (v1 v2 : V),
      stringTrie.Get slash slash_ne_nil
          (stringTrie.Put slash slash_ne_nil
            (stringTrie.Put slash slash_ne_nil t ['f', 'o', 'o', '/'] v1)
            ['f', 'o', 'o'] v2)
          ['f', 'o', 'o', '/'] = (v2, true) ∧
      stringTrie.Get slash slash_ne_nil
          (stringTrie.Put slash slash_ne_nil
            (stringTrie.Put slash slash_ne_nil t ['f', 'o', 'o', '/'] v1)
            ['f', 'o', 'o'] v2)
          ['f', 'o', 'o'] = (v2, true) := by
  have h1 : tokens slash slash_ne_nil ['f', 'o', 'o', '/'] = [['f', 'o', 'o']] := by
    simp [tokens, cut, index?, hasPre, slash]
  have h2 : tokens slash slash_ne_nil ['f', 'o', 'o'] = [['f', 'o', 'o']] := by
    simp [tokens, cut, index?, hasPre, slash]
  refine ⟨h1, h2, ?_⟩
  intro V _ t v1 v2
  rw [Get_tokens, Get_tokens, Put_tokens, Put_tokens, h1, h2]
  exact ⟨sliceTrie.Get_Put_self _ _ _, sliceTrie.Get_Put_self _ _ _⟩

/-- C4: on the delimited-string trie, `Delete("")` does not fail:
`strings.Cut("", d)` yields `head = ""` and remainder `""`, the empty
remainder makes `""` the final segment, and the call removes the root's
child keyed by the empty-string token together with that child's subtree —
afterwards every key of the form `d ++ r` (the keys that descend through
that child) reports `found = false`, while the root itself, its value slot
included, is untouched. -/
theorem C4_delete_empty_string_key :
    ∀ (V : Type) [Inhabited V] (d : List Char) (hd : d ≠ [])
      (t : Node (List Char) V),
      stringTrie.Delete d hd t [] = Node.mk t.value (eraseChild t.children []) ∧
      (∀ r, (stringTrie.Get d hd (stringTrie.Delete d hd t []) (d ++ r)).2 = false) ∧
      stringTrie.Get d hd (stringTrie.Delete d hd t []) [] = (t.value, true) := by
  intro V _ d hd t
  have hcut := cut_nil hd
  have hdel : stringTrie.Delete d hd t [] = Node.mk t.value (eraseChild t.children []) := by
    rw [stringTrie.Delete, hcut]
    simp
  refine ⟨hdel, ?_, ?_⟩
  · intro r
    have hne : d ++ r ≠ [] := by
      intro h
      exact hd (List.append_eq_nil.mp h).1
    rw [hdel, stringTrie.Get]
    simp only [hne, dite_false, cut_append, Node.children_mk, lookup_erase_self]
  · rw [hdel, stringTrie.Get]
    simp

/-- C4 witness: with delimiter `"/"` and a trie holding the key `"/x"`
(which descends through the root child keyed `""`), `Delete("")` removes
that child, `Get("/x")` then fails, and `Get("")` still reports the root. -/
theorem C4_witness :
    stringTrie.Delete slash slash_ne_nil
        (stringTrie.Put slash slash_ne_nil (newNode : Node (List Char) Nat) ['/', 'x'] 3) []
      = Node.mk
          (stringTrie.Put slash slash_ne_nil (newNode : Node (List Char) Nat) ['/', 'x'] 3).value
          (eraseChild
            (stringTrie.Put slash slash_ne_nil (newNode : Node (List Char) Nat) ['/', 'x'] 3).children
            []) ∧
    (stringTrie.Get slash slash_ne_nil
        (stringTrie.Delete slash slash_ne_nil
          (stringTrie.Put slash slash_ne_nil (newNode : Node (List Char) Nat) ['/', 'x'] 3) [])
        (slash ++ ['x'])).2 = false ∧
    stringTrie.Get slash slash_ne_nil
        (stringTrie.Delete slash slash_ne_nil
          (stringTrie.Put slash slash_ne_nil (newNode : Node (List Char) Nat) ['/', 'x'] 3) [])
        []
      = ((stringTrie.Put slash slash_ne_nil (newNode : Node (List Char) Nat) ['/', 'x'] 3).value,
          true) :=
  have h := C4_delete_empty_string_key Nat slash slash_ne_nil
    (stringTrie.Put slash slash_ne_nil (newNode : Node (List Char) Nat) ['/', 'x'] 3)
  ⟨h.1, h.2.1 ['x'], h.2.2⟩

/-- C6: for both flavors, deleting a non-empty key `k` removes the node for
`k` together with its entire subtree: afterwards `Get` reports
`found = false` on `k` itself (`ext = []`) and on every key whose
token/segment sequence extends the sequence walked for `k`. -/
theorem C6_delete_removes_subtree :
    (∀ (K V : Type) [DecidableEq K] [Inhabited V] (t t' : Node K V)
        (k ext : List K),
      k ≠ [] → sliceTrie.Delete t k = some t' →
        (sliceTrie.Get t' (k ++ ext)).2 = false) ∧
    (∀ (V : Type) [Inhabited V] (d : List Char) (hd : d ≠ [])
        (t : Node (List Char) V) (s s' : List Char) (ext : List (List Char)),
      s ≠ [] → tokens d hd s' = tokens d hd s ++ ext →
        (stringTrie.Get d hd (stringTrie.Delete d hd t s) s').2 = false) := by
  constructor
  · intro K V _ _ t t' k ext hk hdel
    exact sliceTrie.Delete_Get_extension k t t' ext hk hdel
  · intro V _ d hd t s s' ext hs htok
    rw [Get_tokens d hd _ s', htok]
    exact sliceTrie.Delete_Get_extension (tokens d hd s) t _ ext
      (tokens_ne_nil d hd hs) (Delete_tokens d hd t hs)

/-- C6 witness: deleting `[1]` kills `[1, 2]` in the slice trie, and
deleting `"a/b"` kills `"a/b/c"` in the string trie (`Put("a/b/c", v);
Delete("a/b"); Get("a/b/c")` yields `found = false`). -/
theorem C6_witness :
    ([1] : List Nat) ≠ [] ∧
    sliceTrie.Delete (sliceTrie.Put (newNode : Node Nat Nat) [1, 2] 3) [1]
      = some (Node.mk 0 []) ∧
    (sliceTrie.Get (Node.mk (0 : Nat) ([] : List (Nat × Node Nat Nat))) ([1] ++ [2])).2 = false ∧
    (['a', '/', 'b'] : List Char) ≠ [] ∧
    tokens slash slash_ne_nil ['a', '/', 'b', '/', 'c']
      = tokens slash slash_ne_nil ['a', '/', 'b'] ++ [['c']] ∧
    (stringTrie.Get slash slash_ne_nil
        (stringTrie.Delete slash slash_ne_nil
          (stringTrie.Put slash slash_ne_nil (newNode : Node (List Char) Nat)
            ['a', '/', 'b', '/', 'c'] 3)
          ['a', '/', 'b'])
        ['a', '/', 'b', '/', 'c']).2 = false := by
  have htok : tokens slash slash_ne_nil ['a', '/', 'b', '/', 'c']
      = tokens slash slash_ne_nil ['a', '/', 'b'] ++ [['c']] := by
    simp [tokens, cut, index?, hasPre, slash]
  have hdel : sliceTrie.Delete (sliceTrie.Put (newNode : Node Nat Nat) [1, 2] 3) [1]
      = some (Node.mk 0 []) := by rfl
  exact ⟨by decide, hdel,
    C6_delete_removes_subtree.1 Nat Nat (sliceTrie.Put (newNode : Node Nat Nat) [1, 2] 3)
      (Node.mk 0 []) [1] [2] (by decide) hdel,
    by decide, htok,
    C6_delete_removes_subtree.2 Nat slash slash_ne_nil _ ['a', '/', 'b']
      ['a', '/', 'b', '/', 'c'] [['c']] (by decide) htok⟩

/-- A list cannot equal itself extended by a non-empty `ext` (and then by
anything more): used to discharge the frame side conditions for ancestors. -/
theorem ne_append_append {α : Type} (p ext e : List α) (hext : ext ≠ []) :
    p ≠ (p ++ ext) ++ e := by
  intro h
  have hl := congrArg List.length h
  simp only [List.length_append] at hl
  have : ext.length = 0 := by omega
  exact hext (List.eq_nil_of_length_eq_zero this)

/-- Repeated subtree deletion (each `Delete` as in the source; a key on
which `Delete` panics leaves the trie as-is, which the lemmas below rule out
by requiring non-empty keys). -/
def deleteAll [DecidableEq K] (t : Node K V) (ks : List (List K)) : Node K V :=
  ks.foldl (fun t k => (sliceTrie.Delete t k).getD t) t

theorem deleteAll_Get [DecidableEq K] [Inhabited V] :
    ∀ (ks : List (List K)) (t : Node K V) (p : List K),
      (∀ k ∈ ks, ∃ e, e ≠ [] ∧ k = p ++ e) →
      sliceTrie.Get (deleteAll t ks) p = sliceTrie.Get t p := by
  intro ks
  induction ks with
  | nil => intro t p _; rfl
  | cons k ks' ih =>
    intro t p h
    obtain ⟨e, he, hke⟩ := h k (by simp)
    have hk : k ≠ [] := by
      subst hke
      intro hnil
      exact he (List.append_eq_nil.mp hnil).2
    obtain ⟨t1, ht1⟩ := sliceTrie.Delete_isSome k t hk
    have hframe : sliceTrie.Get t1 p = sliceTrie.Get t p := by
      apply sliceTrie.Delete_frame k t t1 p ht1
      subst hke
      intro e2
      exact ne_append_append p e e2 he
    calc sliceTrie.Get (deleteAll t (k :: ks')) p
        = sliceTrie.Get (deleteAll t1 ks') p := by simp [deleteAll, ht1]
      _ = sliceTrie.Get t1 p := ih t1 p (fun k2 hk2 => h k2 (by simp [hk2]))
      _ = sliceTrie.Get t p := hframe

/-- C8: `Delete` never prunes ancestors.  For both flavors, deleting a key
that strictly extends `p` leaves `Get p` entirely unchanged (so if the node
for `p` reported `found = true` before — with its assigned value or the
default — it still does); in particular, deleting every member of any list
of keys that all strictly extend `p` leaves `Get p` unchanged, so the
now-childless node for `p` remains in the trie. -/
theorem C8_no_ancestor_pruning :
    (∀ (K V : Type) [DecidableEq K] [Inhabited V] (t t' : Node K V)
        (p ext : List K),
      ext ≠ [] → sliceTrie.Delete t (p ++ ext) = some t' →
        sliceTrie.Get t' p = sliceTrie.Get t p) ∧
    (∀ (K V : Type) [DecidableEq K] [Inhabited V] (t : Node K V) (p : List K)
        (ks : List (List K)),
      (∀ k ∈ ks, ∃ e, e ≠ [] ∧ k = p ++ e) →
        sliceTrie.Get (deleteAll t ks) p = sliceTrie.Get t p) ∧
    (∀ (V : Type) [Inhabited V] (d : List Char) (hd : d ≠ [])
        (t : Node (List Char) V) (s p : List Char) (ext : List (List Char)),
      ext ≠ [] → tokens d hd s = tokens d hd p ++ ext →
        stringTrie.Get d hd (stringTrie.Delete d hd t s) p
          = stringTrie.Get d hd t p) := by
  refine ⟨?_, ?_, ?_⟩
  · intro K V _ _ t t' p ext hext hdel
    exact sliceTrie.Delete_frame (p ++ ext) t t' p hdel
      (fun e => ne_append_append p ext e hext)
  · intro K V _ _ t p ks h
    exact deleteAll_Get ks t p h
  · intro V _ d hd t s p ext hext htok
    have hs : s ≠ [] := by
      intro hnil
      subst hnil
      rw [tokens_nil] at htok
      exact hext (List.append_eq_nil.mp htok.symm).2
    rw [Get_tokens d hd _ p, Get_tokens d hd t p]
    apply sliceTrie.Delete_frame (tokens d hd s) t _ (tokens d hd p)
      (Delete_tokens d hd t hs)
    rw [htok]
    intro e
    exact ne_append_append (tokens d hd p) ext e hext

/-- C8 witness: with `[1, 2]` (resp. `"a/b"`) stored, deleting it leaves
`Get [1]` (resp. `Get "a"`) unchanged, and the same through `deleteAll`. -/
theorem C8_witness :
    sliceTrie.Get (Node.mk (0 : Nat) [(1, Node.mk 0 [])]) [1]
      = sliceTrie.Get (sliceTrie.Put (newNode : Node Nat Nat) [1, 2] 5) [1] ∧
    sliceTrie.Get (deleteAll (sliceTrie.Put (newNode : Node Nat Nat) [1, 2] 5) [[1, 2]]) [1]
      = sliceTrie.Get (sliceTrie.Put (newNode : Node Nat Nat) [1, 2] 5) [1] ∧
    stringTrie.Get slash slash_ne_nil
        (stringTrie.Delete slash slash_ne_nil
          (stringTrie.Put slash slash_ne_nil (newNode : Node (List Char) Nat)
            ['a', '/', 'b'] 5)
          ['a', '/', 'b'])
        ['a']
      = stringTrie.Get slash slash_ne_nil
          (stringTrie.Put slash slash_ne_nil (newNode : Node (List Char) Nat)
            ['a', '/', 'b'] 5)
          ['a'] := by
  have hdel : sliceTrie.Delete (sliceTrie.Put (newNode : Node Nat Nat) [1, 2] 5) ([1] ++ [2])
      = some (Node.mk 0 [(1, Node.mk 0 [])]) := by rfl
  have htok : tokens slash slash_ne_nil ['a', '/', 'b']
      = tokens slash slash_ne_nil ['a'] ++ [['b']] := by
    simp [tokens, cut, index?, hasPre, slash]
  refine ⟨?_, ?_, ?_⟩
  · exact C8_no_ancestor_pruning.1 Nat Nat _ _ [1] [2] (by decide) hdel
  · refine C8_no_ancestor_pruning.2.1 Nat Nat _ [1] [[1, 2]] ?_
    intro k hk
    simp only [List.mem_singleton] at hk
    exact ⟨[2], by decide, by rw [hk]; rfl⟩
  · exact C8_no_ancestor_pruning.2.2 Nat slash slash_ne_nil _ ['a', '/', 'b'] ['a']
      [['b']] (by simp) htok

/-- C9: `Put` frame property.  For both flavors, for every trie state, if
the token/segment sequence of `k'` is neither equal to nor a prefix of the
sequence walked for `k`, then `Get k'` answers the same before and after
`Put(k, v)` — `Put` only touches the descent path of `k`. -/
theorem C9_put_frame :
    (∀ (K V : Type) [DecidableEq K] [Inhabited V] (t : Node K V)
        (k k' : List K) (v : V),
      (∀ e, k ≠ k' ++ e) →
        sliceTrie.Get (sliceTrie.Put t k v) k' = sliceTrie.Get t k') ∧
    (∀ (V : Type) [Inhabited V] (d : List Char) (hd : d ≠ [])
        (t : Node (List Char) V) (s s' : List Char) (v : V),
      (∀ e, tokens d hd s ≠ tokens d hd s' ++ e) →
        stringTrie.Get d hd (stringTrie.Put d hd t s v) s'
          = stringTrie.Get d hd t s') := by
  constructor
  · intro K V _ _ t k k' v hext
    exact sliceTrie.Put_frame k' k t v hext
  · intro V _ d hd t s s' v hext
    rw [Get_tokens d hd _ s', Get_tokens d hd t s', Put_tokens d hd t s v]
    exact sliceTrie.Put_frame (tokens d hd s') (tokens d hd s) t v hext

/-- C9 witness: `Put [1]` does not disturb `Get [2]`, and `Put "a"` does not
disturb `Get "b"`. -/
theorem C9_witness :
    sliceTrie.Get (sliceTrie.Put (newNode : Node Nat Nat) [1] 5) [2]
      = sliceTrie.Get (newNode : Node Nat Nat) [2] ∧
    stringTrie.Get slash slash_ne_nil
        (stringTrie.Put slash slash_ne_nil (newNode : Node (List Char) Nat) ['a'] 5)
        ['b']
      = stringTrie.Get slash slash_ne_nil (newNode : Node (List Char) Nat) ['b'] := by
  have ha : tokens slash slash_ne_nil ['a'] = [['a']] := by
    simp [tokens, cut, index?, hasPre, slash]
  have hb : tokens slash slash_ne_nil ['b'] = [['b']] := by
    simp [tokens, cut, index?, hasPre, slash]
  constructor
  · exact C9_put_frame.1 Nat Nat newNode [1] [2] 5 (by intro e; simp)
  · refine C9_put_frame.2 Nat slash slash_ne_nil newNode ['a'] ['b'] 5 ?_
    intro e
    rw [ha, hb]
    simp

/-- C10: `Delete` frame property.  For both flavors and every non-empty key
`k`, `Delete k` leaves `Get k'` unchanged for every `k'` whose token/segment
sequence does not have the sequence walked for `k` as a prefix: only the
deleted node's subtree is affected, and no surviving node's value slot is
modified (the unchanged `Get` answers include the values). -/
theorem C10_delete_frame :
    (∀ (K V : Type) [DecidableEq K] [Inhabited V] (t t' : Node K V)
        (k k' : List K),
      k ≠ [] → sliceTrie.Delete t k = some t' → (∀ e, k' ≠ k ++ e) →
        sliceTrie.Get t' k' = sliceTrie.Get t k') ∧
    (∀ (V : Type) [Inhabited V] (d : List Char) (hd : d ≠ [])
        (t : Node (List Char) V) (s s' : List Char),
      s ≠ [] → (∀ e, tokens d hd s' ≠ tokens d hd s ++ e) →
        stringTrie.Get d hd (stringTrie.Delete d hd t s) s'
          = stringTrie.Get d hd t s') := by
  constructor
  · intro K V _ _ t t' k k' _ hdel hext
    exact sliceTrie.Delete_frame k t t' k' hdel hext
  · intro V _ d hd t s s' hs hext
    rw [Get_tokens d hd _ s', Get_tokens d hd t s']
    exact sliceTrie.Delete_frame (tokens d hd s) t _ (tokens d hd s')
      (Delete_tokens d hd t hs) hext

/-- C10 witness: deleting `[1]` does not disturb `Get [2]`, and deleting
`"a"` does not disturb `Get "b"`. -/
theorem C10_witness :
    sliceTrie.Get (Node.mk (0 : Nat) []) [2]
      = sliceTrie.Get (sliceTrie.Put (newNode : Node Nat Nat) [1] 5) [2] ∧
    stringTrie.Get slash slash_ne_nil
        (stringTrie.Delete slash slash_ne_nil
          (stringTrie.Put slash slash_ne_nil (newNode : Node (List Char) Nat) ['a'] 5)
          ['a'])
        ['b']
      = stringTrie.Get slash slash_ne_nil
          (stringTrie.Put slash slash_ne_nil (newNode : Node (List Char) Nat) ['a'] 5)
          ['b'] := by
  have ha : tokens slash slash_ne_nil ['a'] = [['a']] := by
    simp [tokens, cut, index?, hasPre, slash]
  have hb : tokens slash slash_ne_nil ['b'] = [['b']] := by
    simp [tokens, cut, index?, hasPre, slash]
  have hdel : sliceTrie.Delete (sliceTrie.Put (newNode : Node Nat Nat) [1] 5) [1]
      = some (Node.mk 0 []) := by rfl
  constructor
  · exact C10_delete_frame.1 Nat Nat _ _ [1] [2] (by decide) hdel (by intro e; simp)
  · refine C10_delete_frame.2 Nat slash slash_ne_nil _ ['a'] ['b'] (by decide) ?_
    intro e
    rw [ha, hb]
    simp

end Trie
